import Mathlib

/-!
Verification of DesktopAnimationTool against its natural-language specification.

The repository renders procedural transitions over a static source image:
a tiled 3-D flip reveal (src/effects/flip_tile.py), an eye-gaze illusion
(src/effects/eyes.py) and a region inpaint/clone effect
(src/effects/hidden.py).  Below, each relevant piece of the Python source is
shallowly embedded in Lean: pure pixel math becomes Lean functions, the
per-frame mutable state of an effect becomes an explicit state record with an
update function, float time accumulators become exact rationals, and the
trigonometric gaze/squash formulas become functions over the reals.  Calls
into external libraries (OpenCV, pygame) are modelled as explicit function
parameters, with only the properties those libraries document.
-/

namespace DesktopAnim

/-! ## Flip tile state machine

Embedding of `FlipTile` from src/effects/flip_tile.py.  A tile owns
`flip_angle` (degrees, a float in the source, an exact rational here),
a frame-count start delay, the `is_animating` / `is_complete` flags and the
cosmetic `line_alpha`.  The per-tile random draws (`target_flips` in [1,4],
`flip_speed` = FLIP_SPEED + uniform(-2,2), the `reverse` flag) are the
`TileParams` record.  `LINE_FADE_SPEED = 5` from the source. -/

structure TileParams where
  targetFlips : ℕ
  flipSpeed : ℚ
  reverse : Bool
  deriving Repr, DecidableEq

structure TileState where
  flipAngle : ℚ
  currentDelay : ℕ
  isAnimating : Bool
  isComplete : Bool
  lineAlpha : ℤ
  deriving Repr, DecidableEq

def LINE_FADE_SPEED : ℤ := 5

/-- `self.total_rotation = self.target_flips * 180` (flip_tile.py line 39). -/
def total_rotation (p : TileParams) : ℚ := p.targetFlips * 180

/-- Initial animation state set in `FlipTile.__init__` (lines 37-47):
angle 0, full start delay, not animating, not complete, cut-line alpha 255
for forward tiles and 0 for reverse tiles. -/
def tileInit (p : TileParams) (delay : ℕ) : TileState :=
  { flipAngle := 0
    currentDelay := delay
    isAnimating := false
    isComplete := false
    lineAlpha := if p.reverse then 0 else 255 }

/-- Lines 126-133 of `FlipTile.update`: a complete tile only fades its cut
line (in for reverse tiles, out for forward tiles). -/
def tileFadeComplete (p : TileParams) (s : TileState) : TileState :=
  if p.reverse then
    if s.lineAlpha < 255 then
      { s with lineAlpha := min 255 (s.lineAlpha + LINE_FADE_SPEED * 2) }
    else s
  else
    if s.lineAlpha > 0 then
      { s with lineAlpha := max 0 (s.lineAlpha - LINE_FADE_SPEED) }
    else s

/-- Lines 135-136 of `FlipTile.update`: a reverse tile that is animating
fades its cut line in. -/
def tileLineBump (p : TileParams) (s : TileState) : TileState :=
  if p.reverse ∧ s.isAnimating ∧ s.lineAlpha < 255 then
    { s with lineAlpha := min 255 (s.lineAlpha + LINE_FADE_SPEED) }
  else s

/-- Lines 138-149 of `FlipTile.update`: consume the start delay, then advance
the angle by the per-tile speed, clamping to the total and marking complete. -/
def tileAdvance (p : TileParams) (s : TileState) : TileState :=
  if s.currentDelay > 0 then
    { s with currentDelay := s.currentDelay - 1 }
  else
    if total_rotation p ≤ s.flipAngle + p.flipSpeed then
      { s with isAnimating := true, flipAngle := total_rotation p, isComplete := true }
    else
      { s with isAnimating := true, flipAngle := s.flipAngle + p.flipSpeed }

/-- `FlipTile.update` (flip_tile.py lines 124-149), one fixed timestep. -/
def tileUpdate (p : TileParams) (s : TileState) : TileState :=
  if s.isComplete then tileFadeComplete p s
  else tileAdvance p (tileLineBump p s)

/-- The state invariant maintained by `tileUpdate`: the angle never exceeds
the rotation total, and an incomplete tile is strictly below it. -/
def TileInv (p : TileParams) (s : TileState) : Prop :=
  s.flipAngle ≤ total_rotation p ∧ (s.isComplete = false → s.flipAngle < total_rotation p)

lemma total_rotation_nonneg (p : TileParams) : 0 ≤ total_rotation p := by
  unfold total_rotation; positivity

lemma total_rotation_pos (p : TileParams) (h : 1 ≤ p.targetFlips) :
    0 < total_rotation p := by
  unfold total_rotation
  have : (1 : ℚ) ≤ (p.targetFlips : ℚ) := by exact_mod_cast h
  nlinarith

lemma tileInv_init (p : TileParams) (delay : ℕ) (h : 1 ≤ p.targetFlips) :
    TileInv p (tileInit p delay) := by
  constructor
  · exact total_rotation_nonneg p
  · intro _; exact total_rotation_pos p h

lemma tileLineBump_fields (p : TileParams) (s : TileState) :
    (tileLineBump p s).flipAngle = s.flipAngle ∧
    (tileLineBump p s).currentDelay = s.currentDelay ∧
    (tileLineBump p s).isComplete = s.isComplete := by
  unfold tileLineBump; split <;> simp

lemma tileFadeComplete_fields (p : TileParams) (s : TileState) :
    (tileFadeComplete p s).flipAngle = s.flipAngle ∧
    (tileFadeComplete p s).currentDelay = s.currentDelay ∧
    (tileFadeComplete p s).isAnimating = s.isAnimating ∧
    (tileFadeComplete p s).isComplete = s.isComplete := by
  unfold tileFadeComplete; split <;> split <;> simp

lemma tileInv_update (p : TileParams) (s : TileState) (h : TileInv p s) :
    TileInv p (tileUpdate p s) := by
  obtain ⟨h1, h2⟩ := h
  unfold tileUpdate
  split
  · -- complete branch: angle untouched
    rename_i hc
    obtain ⟨hA, _, _, hC⟩ := tileFadeComplete_fields p s
    refine ⟨hA ▸ h1, fun hf => ?_⟩
    rw [hC, hc] at hf
    exact absurd hf (by simp)
  · rename_i hc
    simp only [Bool.not_eq_true] at hc
    obtain ⟨hA, _, hC⟩ := tileLineBump_fields p s
    unfold tileAdvance
    split
    · exact ⟨by simpa [hA] using h1, fun _ => by simpa [hA] using h2 hc⟩
    · split
      -- clamp branch: angle = total, complete
      · exact ⟨le_refl _, by simp⟩
      · rename_i hlt
        push_neg at hlt
        exact ⟨le_of_lt hlt, fun _ => hlt⟩

lemma tileInv_iterate (p : TileParams) (delay : ℕ) (h : 1 ≤ p.targetFlips) (n : ℕ) :
    TileInv p ((tileUpdate p)^[n] (tileInit p delay)) := by
  induction n with
  | zero => simpa using tileInv_init p delay h
  | succ k ih =>
    rw [Function.iterate_succ_apply']
    exact tileInv_update p _ ih

/-- A single update never decreases the angle (needs the invariant so the
clamp-to-total case cannot jump downward). -/
lemma tileUpdate_angle_mono (p : TileParams) (s : TileState)
    (hsp : 0 ≤ p.flipSpeed) (h : TileInv p s) :
    s.flipAngle ≤ (tileUpdate p s).flipAngle := by
  obtain ⟨h1, _⟩ := h
  unfold tileUpdate
  split
  · exact le_of_eq (tileFadeComplete_fields p s).1.symm
  · obtain ⟨hA, _, _⟩ := tileLineBump_fields p s
    unfold tileAdvance
    split
    · simp [hA]
    · split
      · simpa using h1
      · simp only [hA]; linarith

/-- Once complete, an update changes nothing but `lineAlpha`. -/
lemma tileUpdate_terminal (p : TileParams) (s : TileState) (h : s.isComplete = true) :
    (tileUpdate p s).flipAngle = s.flipAngle ∧
    (tileUpdate p s).currentDelay = s.currentDelay ∧
    (tileUpdate p s).isAnimating = s.isAnimating ∧
    (tileUpdate p s).isComplete = true := by
  obtain ⟨hA, hD, hN, hC⟩ := tileFadeComplete_fields p s
  unfold tileUpdate
  rw [h]
  simp only [if_true]
  exact ⟨hA, hD, hN, hC.trans h⟩

/-- C4: for every tile and every number of `update()` calls, `flip_angle` is
monotonically non-decreasing, never exceeds `total_rotation =
180 * target_flips`, completion coincides with the angle reaching the total,
and once complete further updates change no field except `line_alpha`. -/
theorem C4_tile_angle_invariants (p : TileParams) (delay n : ℕ)
    (hsp : 0 ≤ p.flipSpeed) (htf : 1 ≤ p.targetFlips) :
    (((tileUpdate p)^[n] (tileInit p delay)).flipAngle ≤
        (tileUpdate p ((tileUpdate p)^[n] (tileInit p delay))).flipAngle) ∧
    (((tileUpdate p)^[n] (tileInit p delay)).flipAngle ≤ total_rotation p) ∧
    (((tileUpdate p)^[n] (tileInit p delay)).flipAngle = total_rotation p →
        ((tileUpdate p)^[n] (tileInit p delay)).isComplete = true) ∧
    (((tileUpdate p)^[n] (tileInit p delay)).isComplete = true →
        (tileUpdate p ((tileUpdate p)^[n] (tileInit p delay))).flipAngle =
          ((tileUpdate p)^[n] (tileInit p delay)).flipAngle ∧
        (tileUpdate p ((tileUpdate p)^[n] (tileInit p delay))).currentDelay =
          ((tileUpdate p)^[n] (tileInit p delay)).currentDelay ∧
        (tileUpdate p ((tileUpdate p)^[n] (tileInit p delay))).isAnimating =
          ((tileUpdate p)^[n] (tileInit p delay)).isAnimating ∧
        (tileUpdate p ((tileUpdate p)^[n] (tileInit p delay))).isComplete = true) := by
  have hinv := tileInv_iterate p delay htf n
  refine ⟨tileUpdate_angle_mono p _ hsp hinv, hinv.1, ?_, ?_⟩
  · intro hEq
    by_contra hNot
    have : ((tileUpdate p)^[n] (tileInit p delay)).isComplete = false := by
      cases hb : ((tileUpdate p)^[n] (tileInit p delay)).isComplete
      · rfl
      · exact absurd hb hNot
    have := hinv.2 this
    rw [hEq] at this
    exact lt_irrefl _ this
  · intro hc
    exact tileUpdate_terminal p _ hc

/-- Witness for C4 at concrete parameters (target_flips 2, flip_speed 5,
forward tile, delay 3, after 7 updates). -/
theorem C4_tile_angle_invariants_witness :
    (0 : ℚ) ≤ 5 ∧ 1 ≤ 2 ∧
    (((tileUpdate ⟨2, 5, false⟩)^[7] (tileInit ⟨2, 5, false⟩ 3)).flipAngle ≤
        total_rotation ⟨2, 5, false⟩) := by
  refine ⟨by norm_num, by norm_num, ?_⟩
  exact (C4_tile_angle_invariants ⟨2, 5, false⟩ 3 7 (by norm_num) (by norm_num)).2.1

/-! ### Termination of a tile (claim C9) -/

lemma tile_delay_phase (p : TileParams) (delay : ℕ) :
    ∀ k, k ≤ delay →
      (tileUpdate p)^[k] (tileInit p delay) =
        { tileInit p delay with currentDelay := delay - k } := by
  intro k
  induction k with
  | zero => intro _; rfl
  | succ j ih =>
    intro hk
    have hj : j ≤ delay := Nat.le_of_succ_le hk
    rw [Function.iterate_succ_apply', ih hj]
    unfold tileUpdate tileLineBump tileAdvance
    have hd : 0 < delay - j := Nat.sub_pos_of_lt hk
    simp [tileInit, hd, Nat.sub_sub]

lemma tile_animate_phase (p : TileParams) (delay : ℕ) :
    ∀ m, ((tileUpdate p)^[delay + m] (tileInit p delay)).isComplete = true ∨
      (((tileUpdate p)^[delay + m] (tileInit p delay)).flipAngle = (m : ℚ) * p.flipSpeed ∧
       ((tileUpdate p)^[delay + m] (tileInit p delay)).currentDelay = 0 ∧
       ((tileUpdate p)^[delay + m] (tileInit p delay)).isComplete = false) := by
  intro m
  induction m with
  | zero =>
    right
    rw [Nat.add_zero, tile_delay_phase p delay delay le_rfl]
    simp [tileInit]
  | succ j ih =>
    rw [show delay + (j + 1) = (delay + j) + 1 from rfl, Function.iterate_succ_apply']
    set t := (tileUpdate p)^[delay + j] (tileInit p delay) with ht
    rcases ih with hc | ⟨ha, hd, hic⟩
    · exact Or.inl (tileUpdate_terminal p _ hc).2.2.2
    · obtain ⟨hbA, hbD, hbC⟩ := tileLineBump_fields p t
      unfold tileUpdate
      rw [if_neg (by simp [hic])]
      unfold tileAdvance
      rw [if_neg (by simp [hbD, hd])]
      split
      · exact Or.inl (by simp)
      · right
        refine ⟨?_, by simpa [hbD] using hd, by simpa [hbC] using hic⟩
        simp only [hbA, ha]
        push_cast
        ring

lemma tile_complete_absorb (p : TileParams) (s : TileState) (h : s.isComplete = true) :
    ∀ j, ((tileUpdate p)^[j] s).isComplete = true := by
  intro j
  induction j with
  | zero => simpa
  | succ k ih =>
    rw [Function.iterate_succ_apply']
    exact (tileUpdate_terminal p _ ih).2.2.2

lemma tile_complete_at (p : TileParams) (delay : ℕ)
    (h3 : 3 ≤ p.flipSpeed) (htf1 : 1 ≤ p.targetFlips) (htf : p.targetFlips ≤ 4) :
    ((tileUpdate p)^[delay + 240] (tileInit p delay)).isComplete = true := by
  rcases tile_animate_phase p delay 240 with hc | ⟨ha, _, hic⟩
  · exact hc
  · exfalso
    have hinv := (tileInv_iterate p delay htf1 (delay + 240)).2 hic
    rw [ha] at hinv
    have htot : total_rotation p ≤ 720 := by
      unfold total_rotation
      have h4 : (p.targetFlips : ℚ) ≤ 4 := by exact_mod_cast htf
      nlinarith
    have h720 : (720 : ℚ) ≤ (240 : ℕ) * p.flipSpeed := by push_cast; nlinarith
    linarith

/-- C9: every tile terminates.  With a flip speed of at least 3 (base speed 5
plus jitter in [-2, 2]) and at most 4 target flips (total rotation at most
720 degrees), every tile is complete after at most `delay + 240` calls to
`update()`, i.e. `delay + ceil(720 / 3)`. -/
theorem C9_tile_termination (p : TileParams) (delay n : ℕ)
    (h3 : 3 ≤ p.flipSpeed) (htf1 : 1 ≤ p.targetFlips) (htf : p.targetFlips ≤ 4)
    (hn : delay + 240 ≤ n) :
    ((tileUpdate p)^[n] (tileInit p delay)).isComplete = true := by
  obtain ⟨j, rfl⟩ := Nat.exists_eq_add_of_le hn
  rw [show delay + 240 + j = j + (delay + 240) from by ring, Function.iterate_add_apply]
  exact tile_complete_absorb p _ (tile_complete_at p delay h3 htf1 htf) j

/-- Witness for C9: a tile with speed 5, 1 target flip and no delay is
complete after 240 updates. -/
theorem C9_tile_termination_witness :
    (3 : ℚ) ≤ 5 ∧ 1 ≤ 1 ∧ 1 ≤ 4 ∧ 0 + 240 ≤ 240 ∧
    ((tileUpdate ⟨1, 5, true⟩)^[240] (tileInit ⟨1, 5, true⟩ 0)).isComplete = true := by
  refine ⟨by norm_num, le_rfl, by norm_num, by norm_num, ?_⟩
  exact C9_tile_termination ⟨1, 5, true⟩ 0 240 (by norm_num) le_rfl (by norm_num) (by norm_num)

/-! ## Precomputed flip-state sequence (claim C3)

Embedding of `FlipTile._precompute_flip_states` (flip_tile.py lines 81-118).
A tile bitmap is a row-major grid of pixels; `pygame.transform.flip(s, True,
False)` mirrors horizontally (reverses each row) and `flip(s, False, True)`
mirrors vertically (reverses the row order).  The source builds the list
`flip_surfaces` from a randomly pre-mirrored start state, appends
`target_flips` successive mirrors along the flip axis, overwrites the last
element with the untouched original, and finally reverses the whole list when
`reverse` is set.  `FlipTile.draw` shows `flip_surfaces[-1]` (stored as
`final_surface`) once the tile is complete. -/

abbrev Img := List (List ℕ)

/-- `pygame.transform.flip(surface, True, False)`: horizontal mirror. -/
def flipHoriz (img : Img) : Img := img.map List.reverse

/-- `pygame.transform.flip(surface, False, True)`: vertical mirror. -/
def flipVert (img : Img) : Img := img.reverse

/-- One application of the tile's chosen mirror axis (lines 101-106). -/
def axisFlip (horizontal : Bool) (img : Img) : Img :=
  if horizontal then flipHoriz img else flipVert img

/-- Lines 90-95: the randomly scrambled start state (horizontal mirror with
probability 1/2, then vertical mirror with probability 1/2; the two coin
flips are the parameters `ph`, `pv`). -/
def scrambleStart (ph pv : Bool) (img : Img) : Img :=
  let i1 := if ph then flipHoriz img else img
  if pv then flipVert i1 else i1

/-- Lines 100-108: the chain of `targetFlips` successive mirrors, each
applied to the previous state. -/
def flipChain (horizontal : Bool) : ℕ → Img → List Img
  | 0, _ => []
  | Nat.succ n, cur =>
      let nxt := axisFlip horizontal cur
      nxt :: flipChain horizontal n nxt

/-- `FlipTile._precompute_flip_states`: start state, the mirror chain, the
last element forced back to the original (line 110), and the whole list
reversed when `reverse` is set (lines 113-115). -/
def precomputeFlipStates (orig : Img) (ph pv : Bool) (horizontal : Bool)
    (targetFlips : ℕ) (reverse : Bool) : List Img :=
  let start := scrambleStart ph pv orig
  let states := start :: flipChain horizontal targetFlips start
  let forced := states.set (states.length - 1) orig
  if reverse then forced.reverse else forced

lemma set_last_eq_dropLast_concat {α : Type} (x : α) :
    ∀ l : List α, l ≠ [] → l.set (l.length - 1) x = l.dropLast ++ [x] := by
  intro l
  induction l with
  | nil => intro h; exact absurd rfl h
  | cons a t ih =>
    intro _
    cases t with
    | nil => simp
    | cons b t2 =>
      have hlen : (a :: b :: t2).length - 1 = ((b :: t2).length - 1) + 1 := by
        simp [List.length_cons]
      rw [hlen, List.set_cons_succ, ih (by simp)]
      simp

/-- The counterexample to C3 as stated: an asymmetric 2x2 tile, horizontal
scramble parity, one target flip, `reverse = True`.  The precomputed
sequence is `[original, mirrored]`, so its last element — the bitmap shown
once the flip is complete — is the mirrored scramble state, not the
original. -/
theorem C3_counterexample :
    (precomputeFlipStates [[1, 2], [3, 4]] true false true 1 true).getLast? ≠
      some [[1, 2], [3, 4]] := by decide

/-- C3 amended: the forced sequence resolves to the original at the end that
corresponds to a forward flip.  For `reverse = False` the sequence's last
element equals the untouched original tile bitmap exactly, for every scramble
parity, flip axis and flip count; for `reverse = True` it is the sequence's
FIRST element that equals the original, while the last element (the bitmap
displayed once the flip completes) is the scrambled start state. -/
theorem C3_flip_sequence_resolves (orig : Img) (ph pv : Bool) (horizontal : Bool)
    (targetFlips : ℕ) (reverse : Bool) :
    (if reverse then (precomputeFlipStates orig ph pv horizontal targetFlips reverse).head?
     else (precomputeFlipStates orig ph pv horizontal targetFlips reverse).getLast?)
      = some orig := by
  simp only [precomputeFlipStates]
  have hne : (scrambleStart ph pv orig :: flipChain horizontal targetFlips
      (scrambleStart ph pv orig)) ≠ [] := by simp
  rw [set_last_eq_dropLast_concat orig _ hne]
  cases reverse with
  | false => simp
  | true => simp

/-! ## Tile draw squash scale (claim C5)

Embedding of the scale computation in `FlipTile.draw` (flip_tile.py lines
162-184): `angle_in_flip = flip_angle % 180`, `scale = max(0.02,
abs(cos(radians(angle_in_flip))))`, and the scale is applied to the width for
horizontal flips and to the height for vertical flips, the other dimension
staying at `size`. -/

noncomputable def tileDrawScale (angleInFlip : ℝ) : ℝ :=
  max 0.02 |Real.cos (angleInFlip * Real.pi / 180)|

/-- Lines 175-184 of `FlipTile.draw`: the scaled blit dimensions,
`max(1, int(size * scale))` on the flip axis only. -/
noncomputable def tileScaledDims (horizontal : Bool) (size : ℕ) (scale : ℝ) : ℕ × ℕ :=
  if horizontal then (max 1 (⌊(size : ℝ) * scale⌋.toNat), size)
  else (size, max 1 (⌊(size : ℝ) * scale⌋.toNat))

/-- C5: the draw-time squash scale is `max(0.02, |cos(angleInHalfFlip)|)`,
never below 0.02; within each 180-degree half-cycle it is monotonically
non-increasing on [0, 90] and non-decreasing on [90, 180]; and it is applied
to the flip axis only (the other dimension of the blit stays `size`). -/
theorem C5_tile_squash_scale (θ₁ θ₂ : ℝ) :
    (0.02 ≤ tileDrawScale θ₁) ∧
    (0 ≤ θ₁ → θ₁ ≤ θ₂ → θ₂ ≤ 90 → tileDrawScale θ₂ ≤ tileDrawScale θ₁) ∧
    (90 ≤ θ₁ → θ₁ ≤ θ₂ → θ₂ ≤ 180 → tileDrawScale θ₁ ≤ tileDrawScale θ₂) ∧
    (∀ size : ℕ, (tileScaledDims true size (tileDrawScale θ₁)).2 = size ∧
      (tileScaledDims false size (tileDrawScale θ₁)).1 = size) := by
  have hpi := Real.pi_pos
  refine ⟨le_max_left _ _, ?_, ?_, fun size => ⟨rfl, rfl⟩⟩
  · intro h0 h12 h90
    unfold tileDrawScale
    have ha0 : 0 ≤ θ₁ * Real.pi / 180 := by positivity
    have hab : θ₁ * Real.pi / 180 ≤ θ₂ * Real.pi / 180 := by nlinarith
    have hb2 : θ₂ * Real.pi / 180 ≤ Real.pi / 2 := by nlinarith
    have hcos := Real.cos_le_cos_of_nonneg_of_le_pi ha0 (by linarith) hab
    have hca : 0 ≤ Real.cos (θ₁ * Real.pi / 180) :=
      Real.cos_nonneg_of_mem_Icc ⟨by linarith, by linarith⟩
    have hcb : 0 ≤ Real.cos (θ₂ * Real.pi / 180) :=
      Real.cos_nonneg_of_mem_Icc ⟨by linarith, hb2⟩
    rw [abs_of_nonneg hca, abs_of_nonneg hcb]
    exact max_le_max le_rfl hcos
  · intro h1 h12 h180
    unfold tileDrawScale
    have ha2 : Real.pi / 2 ≤ θ₁ * Real.pi / 180 := by nlinarith
    have hab : θ₁ * Real.pi / 180 ≤ θ₂ * Real.pi / 180 := by nlinarith
    have hbpi : θ₂ * Real.pi / 180 ≤ Real.pi := by nlinarith
    have hcos := Real.cos_le_cos_of_nonneg_of_le_pi (by linarith) hbpi hab
    have hca : Real.cos (θ₁ * Real.pi / 180) ≤ 0 :=
      Real.cos_nonpos_of_pi_div_two_le_of_le ha2 (by linarith)
    have hcb : Real.cos (θ₂ * Real.pi / 180) ≤ 0 :=
      Real.cos_nonpos_of_pi_div_two_le_of_le (le_trans ha2 hab) (by linarith)
    rw [abs_of_nonpos hca, abs_of_nonpos hcb]
    exact max_le_max le_rfl (by linarith)

/-- Witness for C5 at the half-cycle midpoint (both monotonicity windows
meet at 90 degrees; tile size 80 as in config.py). -/
theorem C5_tile_squash_scale_witness :
    (0 : ℝ) ≤ 90 ∧ (90 : ℝ) ≤ 90 ∧ (90 : ℝ) ≤ 180 ∧
    0.02 ≤ tileDrawScale 90 ∧ tileDrawScale 90 ≤ tileDrawScale 90 ∧
    (tileScaledDims true 80 (tileDrawScale 90)).2 = 80 := by
  obtain ⟨h1, h2, h3, h4⟩ := C5_tile_squash_scale 90 90
  exact ⟨by norm_num, le_rfl, by norm_num, h1,
    h2 (by norm_num) le_rfl (by norm_num), (h4 80).1⟩

/-! ## Eye gaze offset (claims C1, C8)

Embedding of the gaze computation in `EyeEffect.update` (eyes.py lines
296-304) with the constructor constants `look_speed = 0.5`, `max_shift = 8`
(lines 37-38).  The source computes the offset as a sum of sinusoids and
applies NO clamp. -/

/-- eyes.py lines 298 and 300:
`look_x = sin(time * look_speed * 2) * max_shift + sin(time * 3.7) * 2`. -/
noncomputable def look_x (t : ℝ) : ℝ :=
  Real.sin (t * 0.5 * 2) * 8 + Real.sin (t * 3.7) * 2

/-- eyes.py lines 299 and 301:
`look_y = sin(time * look_speed * 1.5 + 1) * max_shift * 0.5 + sin(time * 2.3) * 1`. -/
noncomputable def look_y (t : ℝ) : ℝ :=
  Real.sin (t * 0.5 * 1.5 + 1) * 8 * 0.5 + Real.sin (t * 2.3) * 1

lemma sin_at_t0_le : Real.sin ((283 : ℝ) / 60 * 0.5 * 2) ≤ -0.9999 := by
  have hpl := Real.pi_gt_d6
  have hpu := Real.pi_lt_d6
  rw [show (283 : ℝ) / 60 * 0.5 * 2 = 283 / 60 by norm_num]
  have h1 : Real.sin ((283 : ℝ) / 60) = -Real.sin ((283 : ℝ) / 60 - Real.pi) := by
    rw [Real.sin_sub_pi]; ring
  have h2 : Real.sin ((283 : ℝ) / 60 - Real.pi) =
      Real.cos (Real.pi / 2 - ((283 : ℝ) / 60 - Real.pi)) :=
    (Real.cos_pi_div_two_sub _).symm
  have hq := Real.one_sub_sq_div_two_le_cos
    (x := Real.pi / 2 - ((283 : ℝ) / 60 - Real.pi))
  have hz1 : -(0.0043 : ℝ) ≤ Real.pi / 2 - ((283 : ℝ) / 60 - Real.pi) := by linarith
  have hz2 : Real.pi / 2 - ((283 : ℝ) / 60 - Real.pi) ≤ (0.0043 : ℝ) := by linarith
  have hsq : (Real.pi / 2 - ((283 : ℝ) / 60 - Real.pi)) ^ 2 ≤ (0.0043 : ℝ) ^ 2 := by
    nlinarith
  rw [h1, h2]
  nlinarith

lemma sin_at_t0_jitter_le : Real.sin ((283 : ℝ) / 60 * 3.7) ≤ -0.985 := by
  have hpl := Real.pi_gt_d6
  have hpu := Real.pi_lt_d6
  rw [show (283 : ℝ) / 60 * 3.7 = 10471 / 600 by norm_num]
  have h1 : Real.sin ((10471 : ℝ) / 600) =
      Real.sin ((10471 : ℝ) / 600 - 3 * (2 * Real.pi)) := by
    have h := Real.sin_add_int_mul_two_pi ((10471 : ℝ) / 600 - 3 * (2 * Real.pi)) 3
    rw [show (10471 : ℝ) / 600 - 3 * (2 * Real.pi) + (3 : ℤ) * (2 * Real.pi) =
        (10471 : ℝ) / 600 by push_cast; ring] at h
    exact h
  have h2 : Real.sin ((10471 : ℝ) / 600 - 3 * (2 * Real.pi)) =
      -Real.cos (Real.pi / 2 + ((10471 : ℝ) / 600 - 3 * (2 * Real.pi))) := by
    have h := Real.cos_pi_div_two_sub (-((10471 : ℝ) / 600 - 3 * (2 * Real.pi)))
    rw [Real.sin_neg] at h
    rw [show Real.pi / 2 - -((10471 : ℝ) / 600 - 3 * (2 * Real.pi)) =
        Real.pi / 2 + ((10471 : ℝ) / 600 - 3 * (2 * Real.pi)) by ring] at h
    linarith
  have hq := Real.one_sub_sq_div_two_le_cos
    (x := Real.pi / 2 + ((10471 : ℝ) / 600 - 3 * (2 * Real.pi)))
  have hz1 : (0.17 : ℝ) ≤ Real.pi / 2 + ((10471 : ℝ) / 600 - 3 * (2 * Real.pi)) := by
    linarith
  have hz2 : Real.pi / 2 + ((10471 : ℝ) / 600 - 3 * (2 * Real.pi)) ≤ (0.173 : ℝ) := by
    linarith
  have hsq : (Real.pi / 2 + ((10471 : ℝ) / 600 - 3 * (2 * Real.pi))) ^ 2 ≤
      (0.173 : ℝ) ^ 2 := by nlinarith
  rw [h1, h2]
  nlinarith

/-- The counterexample to C1 as stated: at tick time t = 283/60 seconds
(within the 10-second animation), the horizontal gaze offset magnitude
exceeds `max_shift = 8` — the source applies no clamp to the sum of
sinusoids. -/
theorem C1_counterexample :
    (0 : ℝ) ≤ 283 / 60 ∧ (283 : ℝ) / 60 < 10 ∧ 8 < |look_x (283 / 60)| := by
  refine ⟨by norm_num, by norm_num, ?_⟩
  have h1 := sin_at_t0_le
  have h2 := sin_at_t0_jitter_le
  have hle : look_x (283 / 60) ≤ -9 := by
    unfold look_x
    nlinarith
  calc (8 : ℝ) < 9 := by norm_num
    _ ≤ -look_x (283 / 60) := by linarith
    _ ≤ |look_x (283 / 60)| := neg_le_abs _

/-- C1 amended: the gaze offset is not clamped to `max_shift = 8`; instead
it obeys the bounds forced by the sinusoid amplitudes, `|look_x(t)| ≤
8 + 2 = 10` and `|look_y(t)| ≤ 4 + 1 = 5`, for every time t. -/
theorem C1_gaze_offset_bounds (t : ℝ) : |look_x t| ≤ 10 ∧ |look_y t| ≤ 5 := by
  constructor
  · unfold look_x
    rw [abs_le]
    constructor <;>
      nlinarith [Real.sin_le_one (t * 0.5 * 2), Real.neg_one_le_sin (t * 0.5 * 2),
        Real.sin_le_one (t * 3.7), Real.neg_one_le_sin (t * 3.7)]
  · unfold look_y
    rw [abs_le]
    constructor <;>
      nlinarith [Real.sin_le_one (t * 0.5 * 1.5 + 1), Real.neg_one_le_sin (t * 0.5 * 1.5 + 1),
        Real.sin_le_one (t * 2.3), Real.neg_one_le_sin (t * 2.3)]

/-! ### The per-frame eye update loop (claim C8)

`EyeEffect.update` (eyes.py lines 284-304) over an abstract frame type `α`:
`original` is the pristine source image (`self.original`), and `render t` is
the frame produced by re-copying the original and running
`_shift_eye_pixels` for every eye at time `t` (lines 296-304) — its value is
irrelevant to the claim, only that the completed effect stops using it.
Time advances by `1 / FPS` with `FPS = 60` (config.py), exactly rational
here, and `animation_duration = 10.0` (eyes.py line 39). -/

structure EyeState (α : Type) where
  time : ℚ
  isComplete : Bool
  currentSurface : α

/-- Constructor state (eyes.py lines 30-34): time 0, not complete, current
surface a copy of the source image. -/
def eyeInit {α : Type} (original : α) : EyeState α :=
  { time := 0, isComplete := false, currentSurface := original }

/-- `EyeEffect.update` (eyes.py lines 284-304): no-op when complete or when
no eyes were found; otherwise advance time by 1/60 s; at 10 s the effect
completes and the frame reverts to the pristine original; before that the
frame is re-rendered with the shifted pupils. -/
def eyeUpdate {α : Type} (original : α) (render : ℚ → α) (numEyes : ℕ)
    (s : EyeState α) : EyeState α :=
  if s.isComplete ∨ numEyes = 0 then s
  else
    let t := s.time + 1 / 60
    if 10 ≤ t then { time := t, isComplete := true, currentSurface := original }
    else { time := t, isComplete := false, currentSurface := render t }

lemma eyeUpdate_complete_fixed {α : Type} (original : α) (render : ℚ → α)
    (numEyes : ℕ) (s : EyeState α) (h : s.isComplete = true) :
    eyeUpdate original render numEyes s = s := by
  unfold eyeUpdate
  rw [if_pos (Or.inl h)]

lemma eye_incomplete_phase {α : Type} (original : α) (render : ℚ → α)
    (numEyes : ℕ) (hne : numEyes ≠ 0) :
    ∀ k, k ≤ 599 →
      ((eyeUpdate original render numEyes)^[k] (eyeInit original)).time = (k : ℚ) / 60 ∧
      ((eyeUpdate original render numEyes)^[k] (eyeInit original)).isComplete = false := by
  intro k
  induction k with
  | zero => intro _; exact ⟨by norm_num [eyeInit], rfl⟩
  | succ j ih =>
    intro hk
    obtain ⟨ht, hc⟩ := ih (by omega)
    rw [Function.iterate_succ_apply']
    set s := (eyeUpdate original render numEyes)^[j] (eyeInit original) with hs
    unfold eyeUpdate
    rw [if_neg (by simp [hc, hne])]
    have hlt : ¬((10 : ℚ) ≤ s.time + 1 / 60) := by
      rw [ht]
      rw [not_le]
      have : ((j : ℚ) + 1) / 60 < 10 := by
        have hj : (j : ℚ) ≤ 598 := by exact_mod_cast Nat.lt_succ_iff.mp (by omega)
        linarith
      linarith [this]
    rw [if_neg hlt]
    refine ⟨?_, rfl⟩
    simp only [ht]
    push_cast
    ring

lemma eye_completes_at_600 {α : Type} (original : α) (render : ℚ → α)
    (numEyes : ℕ) (hne : numEyes ≠ 0) :
    ((eyeUpdate original render numEyes)^[600] (eyeInit original)).isComplete = true ∧
    ((eyeUpdate original render numEyes)^[600] (eyeInit original)).currentSurface =
      original := by
  obtain ⟨ht, hc⟩ := eye_incomplete_phase original render numEyes hne 599 le_rfl
  rw [show (600 : ℕ) = 599 + 1 from rfl, Function.iterate_succ_apply']
  set s := (eyeUpdate original render numEyes)^[599] (eyeInit original) with hs
  unfold eyeUpdate
  rw [if_neg (by simp [hc, hne])]
  rw [if_pos (by rw [ht]; norm_num)]
  exact ⟨rfl, rfl⟩

/-- C8: with at least one eye, once elapsed time reaches
`animation_duration = 10` s (600 updates at 60 FPS), `is_complete` is set and
the rendered frame equals the pristine source image, and it stays that way
under every further `update()` call — no residual pupil shift. -/
theorem C8_eye_completion_permanent {α : Type} (original : α) (render : ℚ → α)
    (numEyes : ℕ) (n : ℕ) (hne : numEyes ≠ 0) (hn : 600 ≤ n) :
    ((eyeUpdate original render numEyes)^[n] (eyeInit original)).isComplete = true ∧
    ((eyeUpdate original render numEyes)^[n] (eyeInit original)).currentSurface =
      original := by
  obtain ⟨j, rfl⟩ := Nat.exists_eq_add_of_le hn
  rw [show 600 + j = j + 600 from by ring, Function.iterate_add_apply]
  obtain ⟨hc, hcur⟩ := eye_completes_at_600 original render numEyes hne
  have hfix : ∀ m, (eyeUpdate original render numEyes)^[m]
      ((eyeUpdate original render numEyes)^[600] (eyeInit original)) =
      (eyeUpdate original render numEyes)^[600] (eyeInit original) := by
    intro m
    induction m with
    | zero => exact Function.iterate_zero_apply _ _
    | succ i ih =>
      rw [Function.iterate_succ_apply', ih]
      exact eyeUpdate_complete_fixed original render numEyes _ hc
  rw [hfix j]
  exact ⟨hc, hcur⟩

/-- Witness for C8: one eye, exactly 600 updates, over frames modelled as
naturals with original frame 0 and all animated frames 1. -/
theorem C8_eye_completion_permanent_witness :
    (1 : ℕ) ≠ 0 ∧ 600 ≤ 600 ∧
    ((eyeUpdate (0 : ℕ) (fun _ => 1) 1)^[600] (eyeInit 0)).isComplete = true ∧
    ((eyeUpdate (0 : ℕ) (fun _ => 1) 1)^[600] (eyeInit 0)).currentSurface = 0 := by
  refine ⟨by norm_num, le_rfl, ?_⟩
  exact C8_eye_completion_permanent (0 : ℕ) (fun _ => 1) 1 600 (by norm_num) le_rfl

/-! ## Region synthesizer: the "hidden"/"clone" effect

Embedding of `HiddenEffect` (src/effects/hidden.py).  Frames are functions
from integer pixel coordinates `(x, y)` to RGB colors; masks are Boolean
pixel predicates (0/255 in the source).  The OpenCV primitives the effect
calls (`cv2.fillPoly`, `cv2.resize`, `cv2.inpaint`, `cv2.dilate`,
`cv2.bilateralFilter`, `cv2.GaussianBlur`, and the numpy mean-plus-noise
fill whose noise is drawn from `np.random.normal`) are external library
calls: they are modelled as explicit function parameters collected in
`CVOps`, and the theorems assume only the properties OpenCV documents for
them. -/

abbrev Pix := ℤ × ℤ

abbrev Color := ℕ × ℕ × ℕ

abbrev CImage := Pix → Color

abbrev Mask := Pix → Bool

/-- One entry of `self.regions` as stored by `HiddenEffect._process_regions`
(hidden.py lines 36-50). -/
structure HRegion where
  polygon : List Pix
  sourcePolygon : Option (List Pix)
  x : ℤ
  y : ℤ
  w : ℤ
  h : ℤ
  sourceX : ℤ
  sourceY : ℤ
  sourceW : ℤ
  sourceH : ℤ

/-- The external OpenCV/numpy primitives used by `_apply_inpainting`.
`fillPoly pts` is the rasterized interior of a polygon; `resizeLinear` /
`resizeNearestMask` resize a cropped image/mask from source to target
dimensions; `inpaintTelea` is `cv2.inpaint(..., cv2.INPAINT_TELEA)`;
`dilate3` is dilation by a 3x3 ones kernel (1 iteration, line 144-145);
`dilateBand` is dilation by a 20x20 ones kernel (2 iterations, lines
128-129); `bilateral` is `cv2.bilateralFilter(result, 5, 40, 40)`;
`featherWeight` is the Gaussian-blurred mask divided by 255 (line 150);
`meanFill` is the mean-of-band color with per-pixel Gaussian noise (lines
132-141), `none` when the sampling band is empty. -/
structure CVOps where
  fillPoly : List Pix → Mask
  resizeLinear : CImage → ℤ × ℤ → ℤ × ℤ → CImage
  resizeNearestMask : Mask → ℤ × ℤ → ℤ × ℤ → Mask
  inpaintTelea : CImage → Mask → CImage
  dilate3 : Mask → Mask
  dilateBand : Mask → Mask
  bilateral : CImage → CImage
  featherWeight : Mask → Pix → ℚ
  meanFill : CImage → Mask → Option (Pix → Color)

/-- Numpy sub-array crop `img[y0 : y0 + h, x0 : x0 + w]` in local
coordinates. -/
def cropImage (img : CImage) (x0 y0 : ℤ) : CImage :=
  fun q => img (x0 + q.1, y0 + q.2)

/-- Numpy sub-array crop of a mask. -/
def cropMask (m : Mask) (x0 y0 : ℤ) : Mask :=
  fun q => m (x0 + q.1, y0 + q.2)

/-- `cv2.rectangle(mask, (x, y), (x + w, y + h), 255, -1)` (hidden.py line
87): a filled rectangle, inclusive of both corners. -/
def rectMask (x y w h : ℤ) : Mask :=
  fun q => decide (x ≤ q.1 ∧ q.1 ≤ x + w ∧ y ≤ q.2 ∧ q.2 ≤ y + h)

/-- One region's contribution to the composite mask (hidden.py lines 80-87):
the rasterized polygon when it has at least 3 points, the bounding rectangle
otherwise. -/
def regionMaskContrib (cv : CVOps) (r : HRegion) : Mask :=
  if 3 ≤ r.polygon.length then cv.fillPoly r.polygon
  else rectMask r.x r.y r.w r.h

/-- Lines 78-87: the composite mask, built by drawing every region's
contribution into one initially-zero mask in order. -/
def compositeMask (cv : CVOps) (regions : List HRegion) : Mask :=
  regions.foldl (fun m r => fun q => m q || regionMaskContrib cv r q) (fun _ => false)

lemma compositeMask_foldl (cv : CVOps) (q : Pix) :
    ∀ (regions : List HRegion) (init : Mask),
      (regions.foldl (fun m r => fun q => m q || regionMaskContrib cv r q) init) q =
        (init q || regions.any (fun r => regionMaskContrib cv r q)) := by
  intro regions
  induction regions with
  | nil => intro init; simp
  | cons r rest ih =>
    intro init
    rw [List.foldl_cons, ih, List.any_cons]
    simp [Bool.or_assoc]

/-- C7: the composite mask equals the union over all regions of the
rasterized polygon interior when the target polygon has at least 3 points,
and of the region's axis-aligned bounding rectangle otherwise (the
degenerate polygon is never rasterized). -/
theorem C7_composite_mask_union (cv : CVOps) (regions : List HRegion) (q : Pix) :
    compositeMask cv regions q =
      regions.any (fun r =>
        if 3 ≤ r.polygon.length then cv.fillPoly r.polygon q
        else rectMask r.x r.y r.w r.h q) := by
  unfold compositeMask
  rw [compositeMask_foldl]
  simp only [Bool.false_or]
  congr 1
  funext r
  unfold regionMaskContrib
  split <;> rfl

/-- One iteration of the clone-mode copy loop body (hidden.py lines
122-125): when the target pixel `(tx, ty) = (target_x + dx, target_y + dy)`
is on screen and both the region mask and the resized source mask are set
there, the result pixel is overwritten with the resized source pixel. -/
def cloneWrite (W H targetX targetY : ℤ) (regionMask srcMaskResized : Mask)
    (srcResized : CImage) (dy : ℕ) (acc : CImage) (dx : ℕ) : CImage :=
  if (0 ≤ targetY + (dy : ℤ) ∧ targetY + (dy : ℤ) < H ∧
      0 ≤ targetX + (dx : ℤ) ∧ targetX + (dx : ℤ) < W) ∧
      regionMask (targetX + (dx : ℤ), targetY + (dy : ℤ)) = true ∧
      srcMaskResized ((dx : ℤ), (dy : ℤ)) = true then
    fun q => if q = (targetX + (dx : ℤ), targetY + (dy : ℤ)) then
      srcResized ((dx : ℤ), (dy : ℤ)) else acc q
  else acc

/-- Lines 120-125: the clone-mode nested copy loop,
`for dy in range(target_h): for dx in range(target_w): ...`. -/
def cloneLoop (W H targetX targetY : ℤ) (targetW targetH : ℕ)
    (regionMask srcMaskResized : Mask) (srcResized : CImage) (img : CImage) : CImage :=
  (List.range targetH).foldl (fun acc dy =>
    (List.range targetW).foldl
      (cloneWrite W H targetX targetY regionMask srcMaskResized srcResized dy) acc) img

/-- Lines 136-141: the flat mean-plus-noise pre-fill writes (only) at pixels
where the region mask is set; `fill = none` models the empty-sampling-band
guard of lines 132-134, under which nothing is written. -/
def meanFillStep (fill : Option (Pix → Color)) (regionMask : Mask) (img : CImage) : CImage :=
  match fill with
  | none => img
  | some f => fun q => if regionMask q then f q else img q

/-- Lines 89-141: per-region processing pass over `result`.  Regions with a
degenerate (<3 point) target polygon are skipped; a region with a valid
source polygon runs the clone copy (guarded by positive box dimensions);
any other region gets the mean-color pre-fill over its own mask. -/
def processRegion (cv : CVOps) (W H : ℤ) (original : CImage)
    (img : CImage) (r : HRegion) : CImage :=
  if r.polygon.length < 3 then img
  else
    let regionMask := cv.fillPoly r.polygon
    match r.sourcePolygon with
    | some sp =>
      if 3 ≤ sp.length then
        if 0 < r.sourceW ∧ 0 < r.sourceH ∧ 0 < r.w ∧ 0 < r.h then
          let sourceCrop := cropImage original r.sourceX r.sourceY
          let sourceResized := cv.resizeLinear sourceCrop (r.sourceW, r.sourceH) (r.w, r.h)
          let sourceMaskCrop := cropMask (cv.fillPoly sp) r.sourceX r.sourceY
          let sourceMaskResized :=
            cv.resizeNearestMask sourceMaskCrop (r.sourceW, r.sourceH) (r.w, r.h)
          cloneLoop W H r.x r.y r.w.toNat r.h.toNat regionMask sourceMaskResized
            sourceResized img
        else img
      else
        let band := fun q => (cv.dilateBand regionMask q && !(regionMask q))
        meanFillStep (cv.meanFill original band) regionMask img
    | none =>
      let band := fun q => (cv.dilateBand regionMask q && !(regionMask q))
      meanFillStep (cv.meanFill original band) regionMask img

/-- `(result_smooth * m + original * (1 - m)).astype(np.uint8)` on one
channel: the feathered blend, truncated to an integer. -/
def blendChan (a b : ℕ) (w : ℚ) : ℕ :=
  (Int.floor ((a : ℚ) * w + (b : ℚ) * (1 - w))).toNat

/-- Line 152: the feathered per-pixel blend of the smoothed result over the
untouched original. -/
def blendFeather (a b : Color) (w : ℚ) : Color :=
  (blendChan a.1 b.1 w, blendChan a.2.1 b.2.1 w, blendChan a.2.2 b.2.2 w)

/-- `HiddenEffect._apply_inpainting` (hidden.py lines 69-158), the hidden
composite produced when OpenCV is available: build the composite mask, run
the per-region clone/pre-fill pass over a copy of the original, Telea-inpaint
the result over the dilated composite mask, bilateral-smooth it, and
feather-blend it back onto the original. -/
def hiddenComposite (cv : CVOps) (W H : ℤ) (original : CImage)
    (regions : List HRegion) : CImage :=
  let mask := compositeMask cv regions
  let result := regions.foldl (processRegion cv W H original) original
  let result2 := cv.inpaintTelea result (cv.dilate3 mask)
  let resultSmooth := cv.bilateral result2
  fun q => blendFeather (resultSmooth q) (original q) (cv.featherWeight mask q)

/-- The same pipeline with the clone-mode copy loop skipped (used to show
that loop is dead code: see the C2 theorem). -/
def processRegionNoClone (cv : CVOps) (W H : ℤ) (original : CImage)
    (img : CImage) (r : HRegion) : CImage :=
  if r.polygon.length < 3 then img
  else
    let regionMask := cv.fillPoly r.polygon
    match r.sourcePolygon with
    | some sp =>
      if 3 ≤ sp.length then img
      else
        let band := fun q => (cv.dilateBand regionMask q && !(regionMask q))
        meanFillStep (cv.meanFill original band) regionMask img
    | none =>
      let band := fun q => (cv.dilateBand regionMask q && !(regionMask q))
      meanFillStep (cv.meanFill original band) regionMask img

def hiddenCompositeNoClone (cv : CVOps) (W H : ℤ) (original : CImage)
    (regions : List HRegion) : CImage :=
  let mask := compositeMask cv regions
  let result := regions.foldl (processRegionNoClone cv W H original) original
  let result2 := cv.inpaintTelea result (cv.dilate3 mask)
  let resultSmooth := cv.bilateral result2
  fun q => blendFeather (resultSmooth q) (original q) (cv.featherWeight mask q)

/-! ### Effect-session state of the hidden effect (claims C6, C10) -/

structure HiddenState where
  time : ℚ
  isComplete : Bool
  currentSurface : CImage
  hiddenSurface : Option CImage

/-- `HiddenEffect.__init__` (hidden.py lines 17-34): time 0, not complete,
current surface a copy of the original, and `hidden_surface = None` unless
region data is present, in which case `_apply_inpainting` runs — producing
the composite when OpenCV is importable (`hasCV2`), and a plain copy of the
original otherwise (lines 53-67). -/
def hiddenInit (cv : CVOps) (W H : ℤ) (hasCV2 : Bool) (original : CImage)
    (polygonData : List HRegion) : HiddenState :=
  { time := 0
    isComplete := false
    currentSurface := original
    hiddenSurface :=
      if polygonData.isEmpty then none
      else if hasCV2 then some (hiddenComposite cv W H original polygonData)
      else some original }

/-- `progress * progress * (3 - 2 * progress)` smoothstep over the 2-second
reveal (hidden.py lines 174-176). -/
def smoothstepProgress (t : ℚ) : ℚ :=
  let p := t / 2
  p * p * (3 - 2 * p)

/-- `HiddenEffect.update` (hidden.py lines 162-183).  `alphaBlit orig hid a`
models blitting `hid` with image-wide alpha `a` over a copy of `orig`
(pygame `set_alpha` + `blit`, an external per-pixel blend). -/
def hiddenUpdate (alphaBlit : CImage → CImage → ℚ → CImage) (original : CImage)
    (s : HiddenState) : HiddenState :=
  match s.hiddenSurface with
  | none => s
  | some hid =>
    if s.isComplete then s
    else
      let t := s.time + 1 / 60
      if 10 ≤ t then { s with time := t, isComplete := true, currentSurface := hid }
      else if t < 2 then
        { s with time := t, currentSurface := alphaBlit original hid (smoothstepProgress t) }
      else { s with time := t, currentSurface := hid }

/-- C6: if the inpainting capability (OpenCV) is unavailable at construction,
the synthesizer degrades instead of crashing: the hidden surface is set to an
exact copy of the original image, and construction returns normally (the
embedding is a total function). -/
theorem C6_missing_opencv_degrades (cv : CVOps) (W H : ℤ) (original : CImage)
    (pd : List HRegion) (h : pd ≠ []) :
    (hiddenInit cv W H false original pd).hiddenSurface = some original := by
  unfold hiddenInit
  have : pd.isEmpty = false := by
    cases pd with
    | nil => exact absurd rfl h
    | cons a t => rfl
  simp [this]

/-- C10: a synthesizer constructed with no region data never completes: the
hidden surface stays unset, every `update()` is a no-op (time does not
advance, `is_complete` stays false) and the rendered frame stays the
original image, for every number of updates. -/
theorem C10_no_regions_is_inert (cv : CVOps) (W H : ℤ)
    (alphaBlit : CImage → CImage → ℚ → CImage) (original : CImage)
    (hasCV2 : Bool) (n : ℕ) :
    ((hiddenUpdate alphaBlit original)^[n] (hiddenInit cv W H hasCV2 original [])) =
      hiddenInit cv W H hasCV2 original [] ∧
    (hiddenInit cv W H hasCV2 original []).time = 0 ∧
    (hiddenInit cv W H hasCV2 original []).isComplete = false ∧
    (hiddenInit cv W H hasCV2 original []).currentSurface = original ∧
    (hiddenInit cv W H hasCV2 original []).hiddenSurface = none := by
  have hnone : (hiddenInit cv W H hasCV2 original []).hiddenSurface = none := by
    unfold hiddenInit
    simp
  have hfix : hiddenUpdate alphaBlit original (hiddenInit cv W H hasCV2 original []) =
      hiddenInit cv W H hasCV2 original [] := by
    unfold hiddenUpdate
    rw [hnone]
  exact ⟨Function.iterate_fixed hfix n, rfl, rfl, rfl, hnone⟩

/-! ### Claim C2: in clone mode the copied pixels do not survive to the
final composite — `cv2.inpaint` runs afterwards over the dilated composite
mask, which covers every pixel the clone loop wrote, and Telea inpainting
re-synthesizes every masked pixel from the unmasked pixels only. -/

/-- The documented behavior of `cv2.inpaint`: the pixels inside the mask are
reconstructed from the image outside the mask, so the output is unchanged
when the input images agree on every unmasked pixel. -/
def InpaintUsesOnlyUnmasked (inpaint : CImage → Mask → CImage) : Prop :=
  ∀ img img2 m, (∀ q, m q = false → img q = img2 q) → inpaint img m = inpaint img2 m

/-- The documented behavior of `cv2.dilate` with an all-ones kernel: the
dilated mask contains the mask. -/
def DilatePreservesMask (dilate : Mask → Mask) : Prop :=
  ∀ m q, m q = true → dilate m q = true

lemma cloneWrite_off_mask (W H targetX targetY : ℤ) (regionMask srcMaskResized : Mask)
    (srcResized : CImage) (dy : ℕ) (acc : CImage) (dx : ℕ) (q : Pix)
    (hq : regionMask q = false) :
    cloneWrite W H targetX targetY regionMask srcMaskResized srcResized dy acc dx q =
      acc q := by
  unfold cloneWrite
  split
  · rename_i hcond
    simp only
    split
    · rename_i hqe
      rw [hqe] at hq
      exact absurd hcond.2.1 (by simp [hq])
    · rfl
  · rfl

lemma cloneInner_off_mask (W H targetX targetY : ℤ) (regionMask srcMaskResized : Mask)
    (srcResized : CImage) (dy : ℕ) (q : Pix) (hq : regionMask q = false) :
    ∀ (l : List ℕ) (acc : CImage),
      (l.foldl (cloneWrite W H targetX targetY regionMask srcMaskResized srcResized dy)
        acc) q = acc q := by
  intro l
  induction l with
  | nil => intro acc; rfl
  | cons dx rest ih =>
    intro acc
    rw [List.foldl_cons, ih]
    exact cloneWrite_off_mask W H targetX targetY regionMask srcMaskResized srcResized
      dy acc dx q hq

lemma cloneLoop_off_mask (W H targetX targetY : ℤ) (targetW targetH : ℕ)
    (regionMask srcMaskResized : Mask) (srcResized : CImage) (img : CImage) (q : Pix)
    (hq : regionMask q = false) :
    cloneLoop W H targetX targetY targetW targetH regionMask srcMaskResized srcResized
      img q = img q := by
  unfold cloneLoop
  generalize List.range targetH = l
  induction l generalizing img with
  | nil => rfl
  | cons dy rest ih =>
    rw [List.foldl_cons]
    rw [ih]
    exact cloneInner_off_mask W H targetX targetY regionMask srcMaskResized srcResized
      dy q hq _ img

lemma meanFillStep_off_mask (fill : Option (Pix → Color)) (regionMask : Mask)
    (img : CImage) (q : Pix) (hq : regionMask q = false) :
    meanFillStep fill regionMask img q = img q := by
  unfold meanFillStep
  cases fill with
  | none => rfl
  | some f => simp [hq]

lemma processRegion_off_mask (cv : CVOps) (W H : ℤ) (original : CImage)
    (img : CImage) (r : HRegion) (q : Pix) (hq : regionMaskContrib cv r q = false) :
    processRegion cv W H original img r q = img q := by
  unfold processRegion
  split
  · rfl
  · rename_i hlen
    have h3 : 3 ≤ r.polygon.length := by omega
    have hfp : cv.fillPoly r.polygon q = false := by
      unfold regionMaskContrib at hq
      rw [if_pos h3] at hq
      exact hq
    cases hsp : r.sourcePolygon with
    | none => exact meanFillStep_off_mask _ _ img q hfp
    | some sp =>
      simp only
      split
      · split
        · exact cloneLoop_off_mask W H r.x r.y r.w.toNat r.h.toNat _ _ _ img q hfp
        · rfl
      · exact meanFillStep_off_mask _ _ img q hfp

lemma processRegionNoClone_off_mask (cv : CVOps) (W H : ℤ) (original : CImage)
    (img : CImage) (r : HRegion) (q : Pix) (hq : regionMaskContrib cv r q = false) :
    processRegionNoClone cv W H original img r q = img q := by
  unfold processRegionNoClone
  split
  · rfl
  · rename_i hlen
    have h3 : 3 ≤ r.polygon.length := by omega
    have hfp : cv.fillPoly r.polygon q = false := by
      unfold regionMaskContrib at hq
      rw [if_pos h3] at hq
      exact hq
    cases hsp : r.sourcePolygon with
    | none => exact meanFillStep_off_mask _ _ img q hfp
    | some sp =>
      simp only
      split
      · rfl
      · exact meanFillStep_off_mask _ _ img q hfp

lemma foldl_processRegion_off_mask (cv : CVOps) (W H : ℤ) (original : CImage) (q : Pix) :
    ∀ (regions : List HRegion) (img : CImage),
      (∀ r ∈ regions, regionMaskContrib cv r q = false) →
      (regions.foldl (processRegion cv W H original) img) q = img q := by
  intro regions
  induction regions with
  | nil => intro img _; rfl
  | cons r rest ih =>
    intro img hall
    rw [List.foldl_cons, ih _ (fun r2 hr2 => hall r2 (List.mem_cons_of_mem r hr2))]
    exact processRegion_off_mask cv W H original img r q (hall r (List.mem_cons_self r rest))

lemma foldl_processRegionNoClone_off_mask (cv : CVOps) (W H : ℤ) (original : CImage)
    (q : Pix) :
    ∀ (regions : List HRegion) (img : CImage),
      (∀ r ∈ regions, regionMaskContrib cv r q = false) →
      (regions.foldl (processRegionNoClone cv W H original) img) q = img q := by
  intro regions
  induction regions with
  | nil => intro img _; rfl
  | cons r rest ih =>
    intro img hall
    rw [List.foldl_cons, ih _ (fun r2 hr2 => hall r2 (List.mem_cons_of_mem r hr2))]
    exact processRegionNoClone_off_mask cv W H original img r q
      (hall r (List.mem_cons_self r rest))

lemma compositeMask_false_forall (cv : CVOps) (regions : List HRegion) (q : Pix)
    (h : compositeMask cv regions q = false) :
    ∀ r ∈ regions, regionMaskContrib cv r q = false := by
  intro r hr
  unfold compositeMask at h
  rw [compositeMask_foldl] at h
  simp only [Bool.false_or, List.any_eq_false] at h
  have := h r hr
  cases hb : regionMaskContrib cv r q
  · rfl
  · exact absurd hb this

/-- C2 (the code bug): the entire clone-mode copy loop is dead code.  The
composite produced by `_apply_inpainting` is identical whether or not the
clone loop runs, because every pixel the loop writes lies inside the
composite mask, the subsequent `cv2.inpaint` call runs over the 3x3-dilated
composite mask (a superset), and Telea inpainting reconstructs every masked
pixel from unmasked pixels only.  Hence a target hole pixel at which both
masks are set takes its final color from the diffusion inpainting pass, not
from the resized source crop — the opposite of what the claim states. -/
theorem C2_clone_loop_is_dead_code (cv : CVOps) (W H : ℤ) (original : CImage)
    (regions : List HRegion)
    (hInp : InpaintUsesOnlyUnmasked cv.inpaintTelea)
    (hDil : DilatePreservesMask cv.dilate3) :
    hiddenComposite cv W H original regions =
      hiddenCompositeNoClone cv W H original regions := by
  have hkey : cv.inpaintTelea (regions.foldl (processRegion cv W H original) original)
      (cv.dilate3 (compositeMask cv regions)) =
      cv.inpaintTelea (regions.foldl (processRegionNoClone cv W H original) original)
      (cv.dilate3 (compositeMask cv regions)) := by
    apply hInp
    intro q hq
    have hm : compositeMask cv regions q = false := by
      cases hb : compositeMask cv regions q
      · rfl
      · rw [hDil _ _ hb] at hq
        exact absurd hq (by simp)
    have hall := compositeMask_false_forall cv regions q hm
    rw [foldl_processRegion_off_mask cv W H original q regions original hall,
      foldl_processRegionNoClone_off_mask cv W H original q regions original hall]
  simp only [hiddenComposite, hiddenCompositeNoClone]
  rw [hkey]

/-! ### A concrete instantiation of the external primitives

`cvModel` is one admissible model of the OpenCV calls (inpainting paints
masked pixels black and is the identity elsewhere, resizing between equal
dimensions is the identity, the feather weight is the hard mask): it
satisfies the two documented properties assumed by the C2 theorem, and on
the concrete 3x3-region input below it exhibits the divergence concretely. -/

def cvModel : CVOps where
  fillPoly := fun pts q => decide (q ∈ pts)
  resizeLinear := fun img _ _ => img
  resizeNearestMask := fun m _ _ => m
  inpaintTelea := fun img m q => if m q then (0, 0, 0) else img q
  dilate3 := fun m => m
  dilateBand := fun m => m
  bilateral := fun img => img
  featherWeight := fun m q => if m q then 1 else 0
  meanFill := fun _ _ => none

def origModel : CImage := fun _ => (200, 200, 200)

/-- A clone-mode region: 3-point target polygon containing pixel (1,1),
3-point source polygon containing local offset (1,1), 3x3 boxes. -/
def regModel : HRegion :=
  { polygon := [(1, 1), (2, 1), (1, 2)]
    sourcePolygon := some [(1, 1), (2, 1), (2, 2)]
    x := 0, y := 0, w := 3, h := 3
    sourceX := 0, sourceY := 0, sourceW := 3, sourceH := 3 }

lemma cvModel_inpaint_unmasked : InpaintUsesOnlyUnmasked cvModel.inpaintTelea := by
  intro img img2 m h
  funext q
  show (if m q then ((0 : ℕ), (0 : ℕ), (0 : ℕ)) else img q) =
    (if m q then ((0 : ℕ), (0 : ℕ), (0 : ℕ)) else img2 q)
  cases hb : m q with
  | true => simp
  | false => simp [h q hb]

lemma cvModel_dilate_preserves : DilatePreservesMask cvModel.dilate3 := by
  intro m q h
  exact h

lemma blendChan_one (a b : ℕ) : blendChan a b 1 = a := by
  unfold blendChan
  rw [show ((a : ℚ) * 1 + (b : ℚ) * (1 - 1)) = (a : ℚ) by ring]
  rw [Int.floor_natCast]
  exact Int.toNat_natCast a

lemma blendFeather_one (a b : Color) : blendFeather a b 1 = a := by
  unfold blendFeather
  rw [blendChan_one, blendChan_one, blendChan_one]

/-- Under `cvModel`, every masked pixel of the final composite carries the
inpainted color (0,0,0), whatever the clone loop wrote there. -/
lemma cvModel_composite_masked (W H : ℤ) (original : CImage)
    (regions : List HRegion) (q : Pix)
    (hm : compositeMask cvModel regions q = true) :
    hiddenComposite cvModel W H original regions q = (0, 0, 0) := by
  show blendFeather
      (cvModel.bilateral (cvModel.inpaintTelea
        (List.foldl (processRegion cvModel W H original) original regions)
        (cvModel.dilate3 (compositeMask cvModel regions))) q)
      (original q)
      (cvModel.featherWeight (compositeMask cvModel regions) q) = (0, 0, 0)
  have hb : cvModel.bilateral (cvModel.inpaintTelea
      (List.foldl (processRegion cvModel W H original) original regions)
      (cvModel.dilate3 (compositeMask cvModel regions))) q = ((0 : ℕ), (0 : ℕ), (0 : ℕ)) := by
    show (if cvModel.dilate3 (compositeMask cvModel regions) q = true
        then ((0 : ℕ), (0 : ℕ), (0 : ℕ))
        else List.foldl (processRegion cvModel W H original) original regions q) =
      ((0 : ℕ), (0 : ℕ), (0 : ℕ))
    have h2 : cvModel.dilate3 (compositeMask cvModel regions) q = true := hm
    rw [h2]
    simp
  have hw : cvModel.featherWeight (compositeMask cvModel regions) q = 1 := by
    show (if compositeMask cvModel regions q = true then (1 : ℚ) else 0) = 1
    rw [hm]
    simp
  rw [hb, hw, blendFeather_one]

/-- Witness for C2 at the concrete input: the hypotheses hold for `cvModel`,
the theorem applies, and at pixel (1,1) — where both the target region mask
and the resized source mask are set — the composite is the inpainted color
(0,0,0), not the resized source-crop color (200,200,200) the claim
requires. -/
theorem C2_clone_loop_is_dead_code_witness :
    InpaintUsesOnlyUnmasked cvModel.inpaintTelea ∧
    DilatePreservesMask cvModel.dilate3 ∧
    (hiddenComposite cvModel 8 8 origModel [regModel] =
      hiddenCompositeNoClone cvModel 8 8 origModel [regModel]) ∧
    cvModel.fillPoly regModel.polygon (1, 1) = true ∧
    cvModel.resizeNearestMask (cropMask (cvModel.fillPoly [(1, 1), (2, 1), (2, 2)]) 0 0)
      (3, 3) (3, 3) ((1 : ℤ), (1 : ℤ)) = true ∧
    hiddenComposite cvModel 8 8 origModel [regModel] (1, 1) = (0, 0, 0) ∧
    cvModel.resizeLinear (cropImage origModel 0 0) (3, 3) (3, 3) ((1 : ℤ), (1 : ℤ)) =
      (200, 200, 200) := by
  refine ⟨cvModel_inpaint_unmasked, cvModel_dilate_preserves, ?_, by decide, by decide,
    ?_, rfl⟩
  · exact C2_clone_loop_is_dead_code cvModel 8 8 origModel [regModel]
      cvModel_inpaint_unmasked cvModel_dilate_preserves
  · exact cvModel_composite_masked 8 8 origModel [regModel] (1, 1) (by decide)

/-- Witness for C6: with OpenCV unavailable and one region present, the
hidden surface is an exact copy of the original. -/
theorem C6_missing_opencv_degrades_witness :
    ([regModel] : List HRegion) ≠ [] ∧
    (hiddenInit cvModel 8 8 false origModel [regModel]).hiddenSurface =
      some origModel := by
  refine ⟨by simp, ?_⟩
  exact C6_missing_opencv_degrades cvModel 8 8 origModel [regModel] (by simp)

end DesktopAnim
